import Mathlib

/-!
Shallow embedding of the WiDS University Challenge enrichment scripts
(`scripts/common.py`, `scripts/noaa_weather_join.py`,
`scripts/osm_infrastructure_join.py`) and proofs about them.

Strings from Python are modelled at character level as `List Char`
(Python slicing and splitting are character based); calendar dates and
timestamps are modelled as integers (day numbers, respectively an
abstract integer time unit with 86400 units per day); numeric
observation values are modelled as rationals; latitude/longitude and
distances are modelled as real numbers.
-/

namespace WiDS

/-! ### `common.strip_srid`

Python:
```
def strip_srid(geom: str) -> str:
    if geom.startswith("SRID="):
        return geom.split(";", 1)[1]
    return geom
```
`geom.split(";", 1)[1]` is everything after the first `';'`; when no
`';'` occurs the index `[1]` raises (modelled as `none`).
-/

/-- Everything after the first `';'` of the list, `none` when no `';'`
occurs (Python `s.split(";", 1)[1]`, which raises on a string without
a `';'`). -/
def afterFirstSemi : List Char → Option (List Char)
  | [] => none
  | c :: cs => if c = ';' then some cs else afterFirstSemi cs

/-- The five characters of the SRID marker `SRID=`. -/
def sridMarker : List Char := ['S', 'R', 'I', 'D', '=']

/-- `common.strip_srid`: strip an `SRID=<n>;` marker from a geometry
string if present.  `none` models the `IndexError` Python raises on a
string that starts with `SRID=` but has no `';'`. -/
def strip_srid (geom : List Char) : Option (List Char) :=
  if geom.take 5 = sridMarker then afterFirstSemi geom else some geom

/-! ### Chunked date iteration of `noaa_weather_join.fetch_daily_chunked`

Python (dates normalised to day granularity, `current`/`end_dt` are
midnights; modelled as integer day numbers):
```
current = start_dt
while current <= end_dt:
    chunk_end = min(current + pd.Timedelta(days=chunk_days-1), end_dt)
    ... issue request for [current, chunk_end] ...
    current = chunk_end + pd.Timedelta(days=1)
```
The loop diverges for `chunk_days ≤ 0`, so the embedding carries the
hypothesis `1 ≤ chunk_days` needed for termination.
-/

/-- The inclusive day sub-ranges `[current, chunk_end]` requested by the
cursor loop of `fetch_daily_chunked`, in the order they are issued.
`C` is `chunk_days`; days are integer day numbers. -/
def chunks (C : ℤ) (hC : 1 ≤ C) (current endDt : ℤ) : List (ℤ × ℤ) :=
  if h : current ≤ endDt then
    (current, min (current + C - 1) endDt) ::
      chunks C hC (min (current + C - 1) endDt + 1) endDt
  else []
termination_by (endDt + 1 - current).toNat
decreasing_by
  simp only [min_def]
  split <;> omega

theorem chunks_of_le {C : ℤ} (hC : 1 ≤ C) {current endDt : ℤ}
    (h : current ≤ endDt) :
    chunks C hC current endDt =
      (current, min (current + C - 1) endDt) ::
        chunks C hC (min (current + C - 1) endDt + 1) endDt := by
  rw [chunks, dif_pos h]

theorem chunks_of_gt {C : ℤ} (hC : 1 ≤ C) {current endDt : ℤ}
    (h : ¬ current ≤ endDt) : chunks C hC current endDt = [] := by
  rw [chunks, dif_neg h]

/-- Bundled induction on the cursor loop: head of the chunk list, bounds
on every emitted sub-range, adjacency of consecutive sub-ranges, strict
ordering of distinct sub-ranges, the union property, and the count
bound, all proved together by induction on the number of remaining
days. -/
theorem chunks_bundle {C : ℤ} (hC : 1 ≤ C) (endDt : ℤ) :
    ∀ n : ℕ, ∀ s : ℤ, (endDt + 1 - s).toNat ≤ n → s ≤ endDt →
      (chunks C hC s endDt).head? = some (s, min (s + C - 1) endDt) ∧
      (∀ p ∈ chunks C hC s endDt,
        s ≤ p.1 ∧ p.1 ≤ p.2 ∧ p.2 ≤ endDt ∧ p.2 - p.1 + 1 ≤ C) ∧
      List.Chain' (fun p q => q.1 = p.2 + 1) (chunks C hC s endDt) ∧
      List.Pairwise (fun p q => p.2 < q.1 ∧ p.1 < q.1)
        (chunks C hC s endDt) ∧
      (∀ d : ℤ, (s ≤ d ∧ d ≤ endDt) ↔
        ∃ p ∈ chunks C hC s endDt, p.1 ≤ d ∧ d ≤ p.2) ∧
      (chunks C hC s endDt).length ≤
        ((endDt + 1 - s).toNat + (C.toNat - 1)) / C.toNat := by
  intro n
  induction n with
  | zero => intro s hn hs; omega
  | succ n IH =>
    intro s hn hs
    have hCn : 0 < C.toNat := by omega
    rcases le_or_lt endDt (s + C - 1) with hce | hce
    · -- last chunk: `chunk_end = endDt` and the loop stops afterwards
      have hmin : min (s + C - 1) endDt = endDt := min_eq_right hce
      have htail : chunks C hC (endDt + 1) endDt = [] :=
        chunks_of_gt hC (by omega)
      rw [chunks_of_le hC hs, hmin, htail]
      refine ⟨rfl, ?_, ?_, ?_, ?_, ?_⟩
      · intro p hp
        rcases List.mem_singleton.mp hp with rfl
        exact ⟨le_refl s, hs, le_refl endDt, by omega⟩
      · exact List.chain'_singleton _
      · exact List.pairwise_singleton _ _
      · intro d
        constructor
        · intro hd
          exact ⟨(s, endDt), List.mem_singleton_self _, hd.1, hd.2⟩
        · rintro ⟨p, hp, h1, h2⟩
          rcases List.mem_singleton.mp hp with rfl
          exact ⟨h1, h2⟩
      · simpa [Nat.one_le_div_iff hCn] using (by omega :
          C.toNat ≤ (endDt + 1 - s).toNat + (C.toNat - 1))
    · -- intermediate chunk: `chunk_end = s + C - 1 < endDt`
      have hmin : min (s + C - 1) endDt = s + C - 1 := min_eq_left (by omega)
      have hs' : s + C ≤ endDt := by omega
      have hn' : (endDt + 1 - (s + C)).toNat ≤ n := by omega
      obtain ⟨IHhead, IHmem, IHchain, IHpair, IHunion, IHlen⟩ :=
        IH (s + C) hn' hs'
      rw [chunks_of_le hC hs, hmin]
      have hnext : s + C - 1 + 1 = s + C := by ring
      rw [hnext]
      refine ⟨rfl, ?_, ?_, ?_, ?_, ?_⟩
      · intro p hp
        rcases List.mem_cons.mp hp with rfl | hp'
        · exact ⟨le_refl s, by omega, by omega, by omega⟩
        · obtain ⟨h1, h2, h3, h4⟩ := IHmem p hp'
          exact ⟨by omega, h2, h3, h4⟩
      · rw [List.chain'_cons']
        refine ⟨?_, IHchain⟩
        intro q hq
        rw [IHhead] at hq
        rcases Option.mem_some_iff.mp hq with rfl
        simp only
        omega
      · rw [List.pairwise_cons]
        refine ⟨?_, IHpair⟩
        intro q hq
        obtain ⟨h1, _, _, _⟩ := IHmem q hq
        exact ⟨by omega, by omega⟩
      · intro d
        constructor
        · intro ⟨hd1, hd2⟩
          by_cases hd : d ≤ s + C - 1
          · exact ⟨(s, s + C - 1), List.mem_cons_self _ _, hd1, hd⟩
          · obtain ⟨p, hp, h1, h2⟩ := (IHunion d).mp ⟨by omega, hd2⟩
            exact ⟨p, List.mem_cons_of_mem _ hp, h1, h2⟩
        · rintro ⟨p, hp, h1, h2⟩
          rcases List.mem_cons.mp hp with rfl | hp'
          · simp only at h1 h2
            exact ⟨h1, by omega⟩
          · obtain ⟨g1, _, g3, _⟩ := IHmem p hp'
            exact ⟨by omega, by omega⟩
      · have hsplit : (endDt + 1 - s).toNat =
            (endDt + 1 - (s + C)).toNat + C.toNat := by omega
        rw [List.length_cons, hsplit]
        have harr : (endDt + 1 - (s + C)).toNat + C.toNat + (C.toNat - 1) =
            ((endDt + 1 - (s + C)).toNat + (C.toNat - 1)) + C.toNat := by
          omega
        rw [harr, Nat.add_div_right _ hCn]
        omega

/-- C2: for `start ≤ end` and chunk size `C ≥ 1`, the cursor loop of
`fetch_daily_chunked` issues sub-ranges that each span at least one and
at most `C` days, that are adjacent (each next sub-range starts the day
after the previous one ends), pairwise non-overlapping and issued in
strictly increasing (hence non-decreasing) date order, and whose union
is exactly the inclusive range `[start, end]`. -/
theorem chunks_partition {C : ℤ} (hC : 1 ≤ C) {start endDt : ℤ}
    (hse : start ≤ endDt) :
    (∀ p ∈ chunks C hC start endDt, p.1 ≤ p.2 ∧ p.2 - p.1 + 1 ≤ C) ∧
    List.Chain' (fun p q => q.1 = p.2 + 1) (chunks C hC start endDt) ∧
    List.Pairwise (fun p q => p.2 < q.1) (chunks C hC start endDt) ∧
    (∀ d : ℤ, (start ≤ d ∧ d ≤ endDt) ↔
      ∃ p ∈ chunks C hC start endDt, p.1 ≤ d ∧ d ≤ p.2) := by
  obtain ⟨_, hmem, hchain, hpair, hunion, _⟩ :=
    chunks_bundle hC endDt (endDt + 1 - start).toNat start (le_refl _) hse
  exact ⟨fun p hp => ⟨(hmem p hp).2.1, (hmem p hp).2.2.2⟩, hchain,
    hpair.imp (fun h => h.1), hunion⟩

/-- C2 witness: the partition property at `start = 0`, `end = 45`,
`C = 30` (the script's default chunk size). -/
theorem chunks_partition_witness :
    (∀ p ∈ chunks 30 (by decide) (0 : ℤ) 45, p.1 ≤ p.2 ∧ p.2 - p.1 + 1 ≤ 30) ∧
    List.Chain' (fun p q => q.1 = p.2 + 1) (chunks 30 (by decide) (0 : ℤ) 45) ∧
    List.Pairwise (fun p q => p.2 < q.1) (chunks 30 (by decide) (0 : ℤ) 45) ∧
    (∀ d : ℤ, (0 ≤ d ∧ d ≤ 45) ↔
      ∃ p ∈ chunks 30 (by decide) (0 : ℤ) 45, p.1 ≤ d ∧ d ≤ p.2) :=
  chunks_partition (by decide) (by decide)

/-- C10: for `start ≤ end` and `chunk_days ≥ 1` the cursor loop
terminates: successive chunk requests have strictly increasing start
dates, and the number of requests is at most
`⌈(days in [start, end]) / chunk_days⌉`. -/
theorem chunks_terminate {C : ℤ} (hC : 1 ≤ C) {start endDt : ℤ}
    (hse : start ≤ endDt) :
    List.Chain' (fun p q => p.1 < q.1) (chunks C hC start endDt) ∧
    (chunks C hC start endDt).length ≤
      ((endDt + 1 - start).toNat + (C.toNat - 1)) / C.toNat := by
  obtain ⟨_, _, _, hpair, _, hlen⟩ :=
    chunks_bundle hC endDt (endDt + 1 - start).toNat start (le_refl _) hse
  exact ⟨(hpair.imp (fun h => h.2)).chain', hlen⟩

/-- C10 witness: the termination bound at `start = 0`, `end = 45`,
`C = 30`: at most `⌈46 / 30⌉ = 2` requests. -/
theorem chunks_terminate_witness :
    List.Chain' (fun p q => p.1 < q.1) (chunks 30 (by decide) (0 : ℤ) 45) ∧
    (chunks 30 (by decide) (0 : ℤ) 45).length ≤
      (((45 : ℤ) + 1 - 0).toNat + ((30 : ℤ).toNat - 1)) / (30 : ℤ).toNat :=
  chunks_terminate (by decide) (by decide)

/-! ### Reshaping of `fetch_daily_chunked`

Python:
```
df = pd.concat(frames, ignore_index=True).drop_duplicates()
df["date"] = pd.to_datetime(df["date"], ...).dt.normalize()
df = df.pivot_table(index="date", columns="datatype", values="value",
                    aggfunc="first").reset_index()
```
A response record carries a raw timestamp (an abstract integer time
unit, 86400 units per day), a datatype code, a numeric value, and the
remaining response columns collapsed into one opaque field (they only
matter for exact-duplicate elimination).  `drop_duplicates()` keeps the
first occurrence of each exact duplicate row; `normalize()` maps a
timestamp to its calendar day; `pivot_table(..., aggfunc="first")`
groups by (normalised date, datatype), keeps the first value of each
group in row order, and sorts the distinct dates as the row index.
-/

/-- One record of a NOAA `data` response (`date`, `datatype`, `value`
plus the remaining columns collapsed into `attributes`). -/
structure Obs where
  date : ℤ
  datatype : List Char
  value : ℚ
  attributes : List Char
deriving DecidableEq

/-- `pd.to_datetime(...).dt.normalize()`: the calendar day of a raw
timestamp (86400 abstract time units per day, floored). -/
def normalizeDate (t : ℤ) : ℤ := t.fdiv 86400

/-- `DataFrame.drop_duplicates()`: remove exact duplicate rows, keeping
the first occurrence of each. -/
def dropDuplicates {α : Type} [DecidableEq α] : List α → List α
  | [] => []
  | x :: xs => x :: dropDuplicates (xs.filter (fun y => y ≠ x))
termination_by l => l.length
decreasing_by
  have := List.length_filter_le (fun y => decide (y ≠ x)) xs
  simp only [List.length_cons]
  omega

/-- Does record `r` fall in the pivot cell for day `d` and datatype
`t`? -/
def obsMatches (d : ℤ) (t : List Char) (r : Obs) : Bool :=
  decide (normalizeDate r.date = d) && decide (r.datatype = t)

/-- The pivoted daily table: the sorted distinct dates (the pivot row
index) and the cell contents per (date, datatype) pair. -/
structure DailyTable where
  dates : List ℤ
  cell : ℤ → List Char → Option ℚ

/-- The reshaping tail of `fetch_daily_chunked`: drop exact duplicate
rows, normalise dates, pivot with first-value aggregation.  (The
`if not frames` early return produces a table with a `date` column and
no rows, which coincides with pivoting the empty record list.) -/
def pivotTable (rows : List Obs) : DailyTable where
  dates :=
    ((rows.map (fun r => normalizeDate r.date)).dedup).insertionSort (· ≤ ·)
  cell d t := ((rows.filter (obsMatches d t)).head?).map Obs.value

/-- `pd.concat(frames)`: the records of all successful chunk responses
in request order.  `fetchRes p = none` models a chunk whose request
raised (logged and skipped); chunks whose response is empty contribute
nothing either way. -/
def mergedResponses (fetchRes : ℤ × ℤ → Option (List Obs))
    (C : ℤ) (hC : 1 ≤ C) (start endDt : ℤ) : List Obs :=
  ((chunks C hC start endDt).filterMap fetchRes).flatten

/-- `fetch_daily_chunked`: issue the chunked requests, merge the
surviving responses, and reshape into the daily table. -/
def fetch_daily_chunked (fetchRes : ℤ × ℤ → Option (List Obs))
    (C : ℤ) (hC : 1 ≤ C) (start endDt : ℤ) : DailyTable :=
  pivotTable (dropDuplicates (mergedResponses fetchRes C hC start endDt))

theorem dropDuplicates_nil {α : Type} [DecidableEq α] :
    dropDuplicates ([] : List α) = [] := by
  rw [dropDuplicates]

theorem dropDuplicates_cons {α : Type} [DecidableEq α] (x : α) (xs : List α) :
    dropDuplicates (x :: xs) =
      x :: dropDuplicates (xs.filter (fun y => y ≠ x)) := by
  rw [dropDuplicates]

theorem filter_ne_filter {α : Type} [DecidableEq α] (p : α → Bool) (x : α)
    (hp : p x = false) (l : List α) :
    (l.filter (fun y => y ≠ x)).filter p = l.filter p := by
  induction l with
  | nil => rfl
  | cons y ys IH =>
    by_cases h : y = x
    · have hd : (decide (y ≠ x)) = false := by simp [h]
      have hpy : p y = false := by rw [h]; exact hp
      rw [List.filter_cons, hd, if_neg (by simp)]
      rw [IH, List.filter_cons, hpy, if_neg (by simp)]
    · have hd : (decide (y ≠ x)) = true := by simp [h]
      rw [List.filter_cons, hd, if_pos rfl]
      rw [List.filter_cons, List.filter_cons, IH]

theorem mem_dropDuplicates {α : Type} [DecidableEq α] :
    ∀ n : ℕ, ∀ l : List α, l.length ≤ n → ∀ a : α,
      (a ∈ dropDuplicates l ↔ a ∈ l) := by
  intro n
  induction n with
  | zero =>
    intro l hl a
    rw [List.length_eq_zero.mp (Nat.le_zero.mp hl), dropDuplicates_nil]
  | succ n IH =>
    intro l hl a
    match l with
    | [] => rw [dropDuplicates_nil]
    | x :: xs =>
      have hlen : (xs.filter (fun y => y ≠ x)).length ≤ n := by
        have := List.length_filter_le (fun y => decide (y ≠ x)) xs
        simp only [List.length_cons] at hl
        omega
      rw [dropDuplicates_cons]
      simp only [List.mem_cons, IH _ hlen a, List.mem_filter]
      constructor
      · rintro (rfl | ⟨h, _⟩)
        · exact Or.inl rfl
        · exact Or.inr h
      · rintro (rfl | h)
        · exact Or.inl rfl
        · by_cases hax : a = x
          · exact Or.inl hax
          · exact Or.inr ⟨h, by simp [hax]⟩

theorem dropDuplicates_filter_head {α : Type} [DecidableEq α] (p : α → Bool) :
    ∀ n : ℕ, ∀ l : List α, l.length ≤ n →
      ((dropDuplicates l).filter p).head? = (l.filter p).head? := by
  intro n
  induction n with
  | zero =>
    intro l hl
    rw [List.length_eq_zero.mp (Nat.le_zero.mp hl), dropDuplicates_nil]
  | succ n IH =>
    intro l hl
    match l with
    | [] => rw [dropDuplicates_nil]
    | x :: xs =>
      have hlen : (xs.filter (fun y => y ≠ x)).length ≤ n := by
        have := List.length_filter_le (fun y => decide (y ≠ x)) xs
        simp only [List.length_cons] at hl
        omega
      rw [dropDuplicates_cons]
      cases hp : p x with
      | true => simp [List.filter_cons, hp]
      | false =>
        rw [List.filter_cons, hp, if_neg (by simp)]
        rw [List.filter_cons, hp, if_neg (by simp)]
        rw [IH _ hlen, filter_ne_filter p x hp]

/-- C1: for every assignment of responses (or failures) to the chunk
requests — including responses with duplicate or overlapping records —
the daily table returned by `fetch_daily_chunked` has no duplicate date
in its row index (at most one row per distinct calendar date, and
exactly the dates present in the merged responses), and each
(date, datatype) cell holds at most one value, namely the value of the
first record of the merged responses that falls in that cell. -/
theorem fetch_daily_unique_rows (fetchRes : ℤ × ℤ → Option (List Obs))
    {C : ℤ} (hC : 1 ≤ C) (start endDt : ℤ) :
    (fetch_daily_chunked fetchRes C hC start endDt).dates.Nodup ∧
    (∀ d : ℤ,
      d ∈ (fetch_daily_chunked fetchRes C hC start endDt).dates ↔
        ∃ r ∈ mergedResponses fetchRes C hC start endDt,
          normalizeDate r.date = d) ∧
    (∀ (d : ℤ) (t : List Char),
      (fetch_daily_chunked fetchRes C hC start endDt).cell d t =
        (((mergedResponses fetchRes C hC start endDt).filter
          (obsMatches d t)).head?).map Obs.value) := by
  refine ⟨?_, ?_, ?_⟩
  · show (((_ : List Obs).map _).dedup.insertionSort (· ≤ ·)).Nodup
    exact (List.perm_insertionSort (· ≤ ·) _).symm.nodup (List.nodup_dedup _)
  · intro d
    show d ∈ ((_ : List Obs).map _).dedup.insertionSort (· ≤ ·) ↔ _
    rw [(List.perm_insertionSort (· ≤ ·) _).mem_iff, List.mem_dedup,
      List.mem_map]
    constructor
    · rintro ⟨r, hr, hd⟩
      exact ⟨r, (mem_dropDuplicates _ _ (le_refl _) r).mp hr, hd⟩
    · rintro ⟨r, hr, hd⟩
      exact ⟨r, (mem_dropDuplicates _ _ (le_refl _) r).mpr hr, hd⟩
  · intro d t
    show (((dropDuplicates _).filter (obsMatches d t)).head?).map Obs.value
      = _
    rw [dropDuplicates_filter_head (obsMatches d t) _ _ (le_refl _)]

/-- C1 witness: the pivot invariants at the default chunk size 30, a
one-day window, and a response carrying a duplicate (date, datatype)
pair. -/
theorem fetch_daily_unique_rows_witness :
    (fetch_daily_chunked
      (fun _ => some [⟨0, ['T'], 1, []⟩, ⟨0, ['T'], 2, []⟩])
      30 (by decide) 0 0).dates.Nodup ∧
    (∀ d : ℤ,
      d ∈ (fetch_daily_chunked
        (fun _ => some [⟨0, ['T'], 1, []⟩, ⟨0, ['T'], 2, []⟩])
        30 (by decide) 0 0).dates ↔
        ∃ r ∈ mergedResponses
          (fun _ => some [⟨0, ['T'], 1, []⟩, ⟨0, ['T'], 2, []⟩])
          30 (by decide) 0 0,
          normalizeDate r.date = d) ∧
    (∀ (d : ℤ) (t : List Char),
      (fetch_daily_chunked
        (fun _ => some [⟨0, ['T'], 1, []⟩, ⟨0, ['T'], 2, []⟩])
        30 (by decide) 0 0).cell d t =
        (((mergedResponses
          (fun _ => some [⟨0, ['T'], 1, []⟩, ⟨0, ['T'], 2, []⟩])
          30 (by decide) 0 0).filter
          (obsMatches d t)).head?).map Obs.value) :=
  fetch_daily_unique_rows _ (by decide) 0 0

/-! ### Event enrichment join of `noaa_weather_join.main`

Python:
```
daily["noaa_date"] = pd.to_datetime(daily["date"], errors="coerce").dt.date
events["_event_date"] = events["_event_dt"].dt.date
joined = events.merge(daily, left_on="_event_date", right_on="noaa_date",
                      how="left")
```
A left merge emits, for each event row in order, one output row per
matching daily row (key equality; a missing event date matches
nothing), or a single output row with empty observation columns when no
daily row matches.
-/

/-- An event row at the time of the join: the original columns are
opaque, `event_date` is the derived `_event_date` column (`none`
models `NaT`, which matches no daily row). -/
structure Event where
  payload : ℕ
  event_date : Option ℤ

/-- A row of the pivoted daily table at the time of the join:
`noaa_date` is the join key, `values` the observation columns. -/
structure DailyRow where
  noaa_date : ℤ
  values : List Char → Option ℚ

/-- `events.merge(daily, left_on="_event_date", right_on="noaa_date",
how="left")`: the second component is the observation part of each
output row, `none` standing for empty observation columns. -/
def leftJoin : List Event → List DailyRow → List (Event × Option DailyRow)
  | [], _ => []
  | e :: es, daily =>
    (match daily.filter (fun r => e.event_date = some r.noaa_date) with
     | [] => [(e, none)]
     | ms => ms.map (fun r => (e, some r))) ++ leftJoin es daily

theorem find_eq_head_filter {α : Type} (p : α → Bool) (l : List α) :
    l.find? p = (l.filter p).head? := by
  induction l with
  | nil => rfl
  | cons x xs IH =>
    cases hp : p x with
    | true =>
      rw [List.find?_cons_of_pos _ hp, List.filter_cons, hp, if_pos rfl,
        List.head?_cons]
    | false =>
      rw [List.find?_cons_of_neg _ (by simp [hp]), List.filter_cons, hp,
        if_neg (by simp), IH]

theorem filter_key_subsingleton (daily : List DailyRow)
    (huniq : (daily.map DailyRow.noaa_date).Nodup) (k : Option ℤ) :
    (daily.filter (fun r => k = some r.noaa_date)).length ≤ 1 := by
  induction daily with
  | nil => simp
  | cons r l IH =>
    rw [List.map_cons, List.nodup_cons] at huniq
    cases hp : (decide (k = some r.noaa_date)) with
    | false =>
      rw [List.filter_cons, hp, if_neg (by simp)]
      exact IH huniq.2
    | true =>
      have hk : k = some r.noaa_date := of_decide_eq_true hp
      have hnil : l.filter (fun r' => k = some r'.noaa_date) = [] := by
        rw [List.eq_nil_iff_forall_not_mem]
        intro x hx
        rw [List.mem_filter] at hx
        have hxk : k = some x.noaa_date := of_decide_eq_true hx.2
        refine huniq.1 ?_
        rw [List.mem_map]
        refine ⟨x, hx.1, ?_⟩
        rw [hk] at hxk
        exact (Option.some_inj.mp hxk).symm
      simp [List.filter_cons, hp, hnil]

theorem leftJoin_eq_map (events : List Event) (daily : List DailyRow)
    (huniq : (daily.map DailyRow.noaa_date).Nodup) :
    leftJoin events daily = events.map (fun e =>
      (e, daily.find? (fun r => e.event_date = some r.noaa_date))) := by
  induction events with
  | nil => rfl
  | cons e es IH =>
    cases hfil : daily.filter (fun r => e.event_date = some r.noaa_date) with
    | nil =>
      have hfind :
          daily.find? (fun r => e.event_date = some r.noaa_date) = none := by
        rw [find_eq_head_filter, hfil]; rfl
      simp [leftJoin, hfil, hfind, IH]
    | cons r rest =>
      have hrest : rest = [] := by
        have hlen := filter_key_subsingleton daily huniq e.event_date
        rw [hfil, List.length_cons] at hlen
        exact List.length_eq_zero.mp (by omega)
      subst hrest
      have hfind :
          daily.find? (fun r' => e.event_date = some r'.noaa_date)
            = some r := by
        rw [find_eq_head_filter, hfil]; rfl
      simp [leftJoin, hfil, hfind, IH]

/-- C3: when the daily table has at most one row per date (as the pivot
guarantees), the left merge of events with daily observations has
exactly one output row per input event row, in order, pairing each
event with the unique matching daily row; an event whose date matches
no daily row keeps its row, with the observation columns empty. -/
theorem left_join_preserves_rows (events : List Event)
    (daily : List DailyRow)
    (huniq : (daily.map DailyRow.noaa_date).Nodup) :
    (leftJoin events daily).length = events.length ∧
    leftJoin events daily = events.map (fun e =>
      (e, daily.find? (fun r => e.event_date = some r.noaa_date))) ∧
    (∀ p ∈ leftJoin events daily,
      (∀ r ∈ daily, p.1.event_date ≠ some r.noaa_date) → p.2 = none) := by
  have hmap := leftJoin_eq_map events daily huniq
  refine ⟨by rw [hmap, List.length_map], hmap, ?_⟩
  intro p hp hnone
  rw [hmap, List.mem_map] at hp
  obtain ⟨e, _, rfl⟩ := hp
  rw [List.find?_eq_none]
  intro r hr
  simpa using hnone r hr

/-- C3 witness: a one-event table whose date has no observation row
keeps its single row with empty observation columns. -/
theorem left_join_preserves_rows_witness :
    (leftJoin [⟨0, some 5⟩] [⟨3, fun _ => none⟩]).length =
      ([⟨0, some 5⟩] : List Event).length ∧
    leftJoin [⟨0, some 5⟩] [⟨3, fun _ => none⟩] =
      ([⟨0, some 5⟩] : List Event).map (fun e =>
        (e, ([⟨3, fun _ => none⟩] : List DailyRow).find?
          (fun r => e.event_date = some r.noaa_date))) ∧
    (∀ p ∈ leftJoin [⟨0, some 5⟩] [⟨3, fun _ => none⟩],
      (∀ r ∈ ([⟨3, fun _ => none⟩] : List DailyRow),
        p.1.event_date ≠ some r.noaa_date) → p.2 = none) :=
  left_join_preserves_rows [⟨0, some 5⟩] [⟨3, fun _ => none⟩] (by simp)

/-- C4 counterexample: on a geometry string carrying two SRID markers,
`strip_srid` strips only the first one, so its result still carries
the marker and stripping twice differs from stripping once.  (Input:
`SRID=1;SRID=2;X`.) -/
theorem strip_srid_not_idempotent :
    ¬ ((strip_srid
        ['S','R','I','D','=','1',';','S','R','I','D','=','2',';','X']).bind
          strip_srid
      = strip_srid
        ['S','R','I','D','=','1',';','S','R','I','D','=','2',';','X']) := by
  decide

/-- C4 amended: `strip_srid` returns a string that does not carry the
`SRID=` marker unchanged, and stripping twice equals stripping once
for every string whose once-stripped result does not itself carry the
marker. -/
theorem strip_srid_conditional_idempotent (g : List Char) :
    (g.take 5 ≠ sridMarker → strip_srid g = some g) ∧
    (∀ h : List Char, strip_srid g = some h → h.take 5 ≠ sridMarker →
      (strip_srid g).bind strip_srid = strip_srid g) := by
  constructor
  · intro hg
    rw [strip_srid, if_neg hg]
  · intro h hgh hh
    rw [hgh, Option.some_bind, strip_srid, if_neg hh]

/-- C4 witness: a plain WKT string (no marker) is returned unchanged
and stripping it twice equals stripping it once. -/
theorem strip_srid_conditional_idempotent_witness :
    (strip_srid ['P','O','I','N','T'] = some ['P','O','I','N','T']) ∧
    ((strip_srid ['P','O','I','N','T']).bind strip_srid =
      strip_srid ['P','O','I','N','T']) :=
  ⟨(strip_srid_conditional_idempotent ['P','O','I','N','T']).1 (by decide),
   (strip_srid_conditional_idempotent ['P','O','I','N','T']).2
     ['P','O','I','N','T'] (by decide) (by decide)⟩

/-! ### `noaa_weather_join.ncei_request`

Python:
```
manual_retries = 2
for i in range(manual_retries + 1):
    try:
        r = session.get(url, headers=headers, params=params, timeout=timeout)
        r.raise_for_status()
        return r.json()
    except (requests.exceptions.ReadTimeout,
            requests.exceptions.ConnectionError) as e:
        if i < manual_retries:
            time.sleep(2 * (i + 1))
            continue
        raise
    except requests.HTTPError:
        raise RuntimeError(f"NCEI HTTP {r.status_code}: {r.text[:400]}")
```
Each GET attempt is modelled by an oracle giving its outcome: a parsed
JSON body, a read-timeout/connection-level exception, or a non-2xx
response (which `raise_for_status` turns into an `HTTPError`) with its
status code and body text.  The model returns the sequence of sleep
durations performed and how the call ends.
-/

/-- The outcome of one GET attempt inside `ncei_request`. -/
inductive Outcome (α : Type) where
  | success (v : α)
  | netErr
  | httpErr (status : ℕ) (text : List Char)

/-- How a call to `ncei_request` ends: a returned JSON body, a
propagated read-timeout/connection exception, or the `RuntimeError`
built from a non-2xx status and the first 400 characters of the
response body. -/
inductive ReqResult (α : Type) where
  | ok (v : α)
  | netRaised
  | httpRaised (status : ℕ) (msg : List Char)

/-- The retry loop of `ncei_request` from attempt `i` on, with
`manualRetries` as in the source; returns the sleeps performed (in
seconds, in order) and the final result. -/
def nceiLoop {α : Type} (attempt : ℕ → Outcome α)
    (manualRetries i : ℕ) : List ℕ × ReqResult α :=
  match attempt i with
  | .success v => ([], .ok v)
  | .httpErr s t => ([], .httpRaised s (t.take 400))
  | .netErr =>
    if h : i < manualRetries then
      let next := nceiLoop attempt manualRetries (i + 1)
      (2 * (i + 1) :: next.1, next.2)
    else ([], .netRaised)
termination_by manualRetries - i
decreasing_by omega

/-- `ncei_request`: the manual retry loop with its default
`manual_retries = 2`, starting at attempt 0. -/
def ncei_request {α : Type} (attempt : ℕ → Outcome α) :
    List ℕ × ReqResult α :=
  nceiLoop attempt 2 0

theorem nceiLoop_success {α : Type} {attempt : ℕ → Outcome α} {m i : ℕ}
    {v : α} (h : attempt i = .success v) :
    nceiLoop attempt m i = ([], .ok v) := by
  rw [nceiLoop, h]

theorem nceiLoop_http {α : Type} {attempt : ℕ → Outcome α} {m i s : ℕ}
    {t : List Char} (h : attempt i = .httpErr s t) :
    nceiLoop attempt m i = ([], .httpRaised s (t.take 400)) := by
  rw [nceiLoop, h]

theorem nceiLoop_net_retry {α : Type} {attempt : ℕ → Outcome α} {m i : ℕ}
    (h : attempt i = .netErr) (hi : i < m) :
    nceiLoop attempt m i =
      (2 * (i + 1) :: (nceiLoop attempt m (i + 1)).1,
        (nceiLoop attempt m (i + 1)).2) := by
  rw [nceiLoop, h]
  simp [hi]

theorem nceiLoop_net_last {α : Type} {attempt : ℕ → Outcome α} {m i : ℕ}
    (h : attempt i = .netErr) (hi : ¬ i < m) :
    nceiLoop attempt m i = ([], .netRaised) := by
  rw [nceiLoop, h]
  simp [hi]

/-- C5: a read-timeout/connection-level failure at attempt `i < 2` is
followed by a sleep of `2 × (i + 1)` seconds and a retry (so the sleep
trace is `[]`, `[2]` or `[2, 4]` according to how many of the first
attempts fail this way), and the exception propagates to the caller if
and only if all three attempts (the initial one plus the default 2
retries) fail with such an exception. -/
theorem ncei_retry_policy {α : Type} (attempt : ℕ → Outcome α) :
    ((ncei_request attempt).2 = ReqResult.netRaised ↔
      attempt 0 = Outcome.netErr ∧ attempt 1 = Outcome.netErr ∧
        attempt 2 = Outcome.netErr) ∧
    (attempt 0 ≠ Outcome.netErr → (ncei_request attempt).1 = []) ∧
    (attempt 0 = Outcome.netErr → attempt 1 ≠ Outcome.netErr →
      (ncei_request attempt).1 = [2]) ∧
    (attempt 0 = Outcome.netErr → attempt 1 = Outcome.netErr →
      (ncei_request attempt).1 = [2, 4]) := by
  rw [ncei_request]
  cases h0 : attempt 0 with
  | success v => simp [nceiLoop_success h0, h0]
  | httpErr s t => simp [nceiLoop_http h0, h0]
  | netErr =>
    rw [nceiLoop_net_retry h0 (by omega)]
    cases h1 : attempt 1 with
    | success v => simp [nceiLoop_success h1, h0, h1]
    | httpErr s t => simp [nceiLoop_http h1, h0, h1]
    | netErr =>
      rw [nceiLoop_net_retry h1 (by omega)]
      cases h2 : attempt 2 with
      | success v => simp [nceiLoop_success h2, h0, h1, h2]
      | httpErr s t => simp [nceiLoop_http h2, h0, h1, h2]
      | netErr =>
        rw [nceiLoop_net_last (m := 2) h2 (by omega)]
        simp [h0, h1, h2]

/-- C5 witness: when every attempt times out, the call sleeps 2 s then
4 s and the exception propagates. -/
theorem ncei_retry_policy_witness :
    ((ncei_request (fun _ => Outcome.netErr : ℕ → Outcome ℕ)).2 =
      ReqResult.netRaised) ∧
    ((ncei_request (fun _ => Outcome.netErr : ℕ → Outcome ℕ)).1 =
      [2, 4]) :=
  ⟨((ncei_retry_policy (fun _ => Outcome.netErr)).1).mpr ⟨rfl, rfl, rfl⟩,
   ((ncei_retry_policy (fun _ => Outcome.netErr)).2.2.2) rfl rfl⟩

/-- C6: when the attempt the loop reaches (all earlier attempts having
failed at connection level) gets a non-2xx response, `ncei_request`
ends with the single descriptive `RuntimeError` carrying that
response's status code and at most the first 400 characters of its
body. -/
theorem ncei_http_failure {α : Type} (attempt : ℕ → Outcome α)
    (i s : ℕ) (t : List Char) (hi : i ≤ 2)
    (hpre : ∀ j, j < i → attempt j = Outcome.netErr)
    (hs : attempt i = Outcome.httpErr s t) :
    (ncei_request attempt).2 = ReqResult.httpRaised s (t.take 400) ∧
    (t.take 400).length ≤ 400 := by
  refine ⟨?_, by rw [List.length_take]; omega⟩
  rw [ncei_request]
  interval_cases i
  · rw [nceiLoop_http hs]
  · rw [nceiLoop_net_retry (hpre 0 (by omega)) (by omega),
      nceiLoop_http hs]
  · rw [nceiLoop_net_retry (hpre 0 (by omega)) (by omega),
      nceiLoop_net_retry (hpre 1 (by omega)) (by omega),
      nceiLoop_http hs]

/-- C6 witness: an immediate 404 response with body `x` raises the
descriptive failure carrying status 404 and the (≤ 400 character)
body. -/
theorem ncei_http_failure_witness :
    ((ncei_request (fun _ => Outcome.httpErr 404 ['x'] :
      ℕ → Outcome ℕ)).2 = ReqResult.httpRaised 404 (['x'].take 400)) ∧
    ((['x'] : List Char).take 400).length ≤ 400 :=
  ncei_http_failure (fun _ => Outcome.httpErr 404 ['x']) 0 404 ['x']
    (by omega) (fun j hj => absurd hj (by omega)) rfl

/-! ### `haversine_km` and `find_nearest_station`

Python:
```
def haversine_km(lat1, lon1, lat2, lon2):
    R = 6371.0
    p1, p2 = radians(lat1), radians(lat2)
    dphi = radians(lat2 - lat1)
    dlmb = radians(lon2 - lon1)
    a = sin(dphi/2)**2 + cos(p1)*cos(p2)*sin(dlmb/2)**2
    return 2 * R * asin(sqrt(a))

best = min(results, key=lambda s: haversine_km(lat, lon, s.get("latitude"), s.get("longitude")))
best = dict(best)
best["dist_km"] = haversine_km(lat, lon, best["latitude"], best["longitude"])
```
Floating-point coordinates and trigonometry are modelled over the real
numbers.  Python's `min(..., key=...)` keeps the current best unless a
later element's key is strictly smaller, so the first-encountered
minimum wins exact ties.
-/

/-- `math.radians`. -/
noncomputable def radians (x : ℝ) : ℝ := x * (Real.pi / 180)

/-- `haversine_km`: great-circle distance, Earth radius 6371.0 km. -/
noncomputable def haversine_km (lat1 lon1 lat2 lon2 : ℝ) : ℝ :=
  let R : ℝ := 6371.0
  let p1 := radians lat1
  let p2 := radians lat2
  let dphi := radians (lat2 - lat1)
  let dlmb := radians (lon2 - lon1)
  let a := Real.sin (dphi / 2) ^ 2 +
    Real.cos p1 * Real.cos p2 * Real.sin (dlmb / 2) ^ 2
  2 * R * Real.arcsin (Real.sqrt a)

/-- C8: `haversine_km` is symmetric in its two points and zero on
identical points. -/
theorem haversine_symm_and_zero (lat1 lon1 lat2 lon2 : ℝ) :
    haversine_km lat1 lon1 lat2 lon2 = haversine_km lat2 lon2 lat1 lon1 ∧
    haversine_km lat1 lon1 lat1 lon1 = 0 := by
  have key : ∀ x : ℝ, Real.sin (-x / 2) ^ 2 = Real.sin (x / 2) ^ 2 := by
    intro x
    rw [neg_div, Real.sin_neg]
    ring
  constructor
  · have h1 : radians (lat1 - lat2) = -(radians (lat2 - lat1)) := by
      unfold radians; ring
    have h2 : radians (lon1 - lon2) = -(radians (lon2 - lon1)) := by
      unfold radians; ring
    have ha : Real.sin (radians (lat1 - lat2) / 2) ^ 2 +
        Real.cos (radians lat2) * Real.cos (radians lat1) *
          Real.sin (radians (lon1 - lon2) / 2) ^ 2 =
        Real.sin (radians (lat2 - lat1) / 2) ^ 2 +
        Real.cos (radians lat1) * Real.cos (radians lat2) *
          Real.sin (radians (lon2 - lon1) / 2) ^ 2 := by
      rw [h1, h2, key, key]
      ring
    simp only [haversine_km]
    rw [ha]
  · have hz0 : radians 0 = 0 := by
      unfold radians; ring
    simp only [haversine_km, sub_self, hz0]
    norm_num

/-- A station as the locator sees it: an opaque identifier and its
coordinates. -/
structure Station where
  id : List Char
  latitude : ℝ
  longitude : ℝ

/-- `best` after `best["dist_km"] = ...`: the chosen station together
with the computed distance. -/
structure StationWithDist where
  station : Station
  dist_km : ℝ

/-- The sort key of the `min` call: distance from the query origin. -/
noncomputable def stationKey (lat lon : ℝ) (s : Station) : ℝ :=
  haversine_km lat lon s.latitude s.longitude

/-- Python `min(x :: xs, key=...)`: fold keeping the current best
unless a strictly smaller key appears, so the first minimum wins
ties. -/
noncomputable def pyMinBy (key : Station → ℝ) (x : Station)
    (xs : List Station) : Station :=
  xs.foldl (fun acc y => if key y < key acc then y else acc) x

/-- `find_nearest_station` after the response has been parsed into its
result list: `none` when the list is empty, otherwise the nearest
station by haversine distance with `dist_km` attached. -/
noncomputable def find_nearest_station (lat lon : ℝ)
    (results : List Station) : Option StationWithDist :=
  match results with
  | [] => none
  | x :: xs =>
    some ⟨pyMinBy (stationKey lat lon) x xs,
      stationKey lat lon (pyMinBy (stationKey lat lon) x xs)⟩

theorem pyMinBy_spec (key : Station → ℝ) :
    ∀ (xs : List Station) (x : Station),
      (key (pyMinBy key x xs) ≤ key x) ∧
      (∀ y ∈ xs, key (pyMinBy key x xs) ≤ key y) ∧
      (pyMinBy key x xs = x ∨
        (key (pyMinBy key x xs) < key x ∧
          ∃ l1 l2, xs = l1 ++ pyMinBy key x xs :: l2 ∧
            ∀ z ∈ l1, key (pyMinBy key x xs) < key z)) := by
  intro xs
  induction xs with
  | nil =>
    intro x
    exact ⟨le_refl _, by simp, Or.inl rfl⟩
  | cons y ys IH =>
    intro x
    by_cases hxy : key y < key x
    · have hfold : pyMinBy key x (y :: ys) = pyMinBy key y ys := by
        rw [pyMinBy, pyMinBy, List.foldl_cons, if_pos hxy]
      rw [hfold]
      obtain ⟨ih1, ih2, ih3⟩ := IH y
      refine ⟨le_of_lt (lt_of_le_of_lt ih1 hxy), ?_, ?_⟩
      · intro z hz
        rcases List.mem_cons.mp hz with rfl | hz'
        · exact ih1
        · exact ih2 z hz'
      · right
        rcases ih3 with heq | ⟨hlt, l1, l2, hsplit, hbefore⟩
        · exact ⟨by rw [heq]; exact hxy, [], ys,
            by rw [heq, List.nil_append], by simp⟩
        · refine ⟨lt_trans hlt hxy, y :: l1, l2,
            by rw [List.cons_append, ← hsplit], ?_⟩
          intro z hz
          rcases List.mem_cons.mp hz with rfl | hz'
          · exact hlt
          · exact hbefore z hz'
    · have hfold : pyMinBy key x (y :: ys) = pyMinBy key x ys := by
        rw [pyMinBy, pyMinBy, List.foldl_cons, if_neg hxy]
      rw [hfold]
      obtain ⟨ih1, ih2, ih3⟩ := IH x
      refine ⟨ih1, ?_, ?_⟩
      · intro z hz
        rcases List.mem_cons.mp hz with rfl | hz'
        · exact le_trans ih1 (le_of_not_lt hxy)
        · exact ih2 z hz'
      · rcases ih3 with heq | ⟨hlt, l1, l2, hsplit, hbefore⟩
        · exact Or.inl heq
        · refine Or.inr ⟨hlt, y :: l1, l2,
            by rw [List.cons_append, ← hsplit], ?_⟩
          intro z hz
          rcases List.mem_cons.mp hz with rfl | hz'
          · exact lt_of_lt_of_le hlt (le_of_not_lt hxy)
          · exact hbefore z hz'

/-- C7: on an empty result list `find_nearest_station` returns the
no-station value (`none`, not an error); on a non-empty list it
returns the station whose haversine distance to the origin is minimal
— the first-encountered minimum winning exact ties (every station
strictly earlier in the list has strictly greater distance) — with the
computed distance attached as `dist_km`. -/
theorem find_nearest_spec (lat lon : ℝ) (results : List Station) :
    (results = [] → find_nearest_station lat lon results = none) ∧
    (results ≠ [] → ∃ best : Station,
      find_nearest_station lat lon results =
        some ⟨best, haversine_km lat lon best.latitude best.longitude⟩ ∧
      (∀ z ∈ results, stationKey lat lon best ≤ stationKey lat lon z) ∧
      (∃ l1 l2, results = l1 ++ best :: l2 ∧
        ∀ z ∈ l1, stationKey lat lon best < stationKey lat lon z)) := by
  constructor
  · rintro rfl
    rfl
  · intro hne
    match results with
    | [] => exact absurd rfl hne
    | x :: xs =>
      obtain ⟨h1, h2, h3⟩ := pyMinBy_spec (stationKey lat lon) xs x
      refine ⟨pyMinBy (stationKey lat lon) x xs, rfl, ?_, ?_⟩
      · intro z hz
        rcases List.mem_cons.mp hz with rfl | hz'
        · exact h1
        · exact h2 z hz'
      · rcases h3 with heq | ⟨hlt, l1, l2, hsplit, hbefore⟩
        · exact ⟨[], xs, by rw [heq, List.nil_append], by simp⟩
        · refine ⟨x :: l1, l2, by rw [List.cons_append, ← hsplit], ?_⟩
          intro z hz
          rcases List.mem_cons.mp hz with rfl | hz'
          · exact hlt
          · exact hbefore z hz'

/-- C7 witness: a single-station result list yields that station with
its distance attached. -/
theorem find_nearest_spec_witness :
    ∃ best : Station,
      find_nearest_station 0 0 [⟨['A'], 1, 2⟩] =
        some ⟨best, haversine_km 0 0 best.latitude best.longitude⟩ ∧
      (∀ z ∈ ([⟨['A'], 1, 2⟩] : List Station),
        stationKey 0 0 best ≤ stationKey 0 0 z) ∧
      (∃ l1 l2, ([⟨['A'], 1, 2⟩] : List Station) = l1 ++ best :: l2 ∧
        ∀ z ∈ l1, stationKey 0 0 best < stationKey 0 0 z) :=
  (find_nearest_spec 0 0 [⟨['A'], 1, 2⟩]).2 (List.cons_ne_nil _ _)

/-! ### Overpass pacing in `osm_infrastructure_join.main`

Python:
```
for perim_id, lat, lon in centroids:
    print(...)
    try:
        rows = query_overpass(amenities, lat, lon, radius_m=radius_m, session=session)
        for r in rows:
            r["perim_id"] = perim_id
        all_rows.extend(rows)
        time.sleep(1.2)  # be nice to Overpass
    except Exception as e:
        print(f"[WARN] Overpass failed for perimeter {perim_id}: {e}")
```
The observable events of the loop, in order: each per-perimeter query,
each pacing sleep (1.2 seconds), and each warning.  `ok pid` tells
whether the query for perimeter `pid` succeeds; the `time.sleep(1.2)`
sits inside the `try` after the query, so it runs only when the query
succeeded.
-/

/-- An observable event of the per-perimeter Overpass loop. -/
inductive OsmEvent where
  | query (pid : ℕ)
  | sleep (seconds : ℚ)
  | warn (pid : ℕ)
deriving DecidableEq

/-- The event trace of the per-perimeter loop of
`osm_infrastructure_join.main` over the centroid perimeter ids `cs`,
with `ok` telling which queries succeed. -/
def osmLoopTrace (ok : ℕ → Bool) : List ℕ → List OsmEvent
  | [] => []
  | pid :: rest =>
    (if ok pid then [OsmEvent.query pid, OsmEvent.sleep (6 / 5)]
     else [OsmEvent.query pid, OsmEvent.warn pid]) ++ osmLoopTrace ok rest

/-- C9 counterexample: with two perimeters where the first query fails,
the trace is query-warn-query-sleep, so no sleep at all (let alone one
of ≥ 1 s) separates the two successive queries at positions 0 and 2. -/
theorem osm_pacing_skipped_on_failure :
    osmLoopTrace (fun p => decide (p ≠ 1)) [1, 2] =
      [OsmEvent.query 1, OsmEvent.warn 1, OsmEvent.query 2,
        OsmEvent.sleep (6 / 5)] ∧
    ¬ ∃ k, 0 < k ∧ k < 2 ∧ ∃ d : ℚ, 1 ≤ d ∧
      (osmLoopTrace (fun p => decide (p ≠ 1)) [1, 2]).get? k =
        some (OsmEvent.sleep d) := by
  constructor
  · rfl
  · rintro ⟨k, hk0, hk2, d, hd, hget⟩
    have hk : k = 1 := by omega
    subst hk
    simp only [show osmLoopTrace (fun p => decide (p ≠ 1)) [1, 2] =
      [OsmEvent.query 1, OsmEvent.warn 1, OsmEvent.query 2,
        OsmEvent.sleep (6 / 5)] from rfl] at hget
    simp at hget

theorem osmLoopTrace_sleep_after_ok (ok : ℕ → Bool) :
    ∀ (cs : List ℕ) (i pid : ℕ),
      (osmLoopTrace ok cs).get? i = some (OsmEvent.query pid) →
      ok pid = true →
      (osmLoopTrace ok cs).get? (i + 1) =
        some (OsmEvent.sleep (6 / 5)) := by
  intro cs
  induction cs with
  | nil =>
    intro i pid h _
    simp [osmLoopTrace] at h
  | cons p rest IH =>
    intro i pid h hok
    cases hp : ok p with
    | true =>
      rw [osmLoopTrace, hp, if_pos rfl, List.cons_append,
        List.cons_append, List.nil_append] at h ⊢
      match i with
      | 0 =>
        rfl
      | 1 =>
        rw [List.get?_cons_succ, List.get?_cons_zero] at h
        exact absurd h (by simp)
      | i + 2 =>
        rw [List.get?_cons_succ, List.get?_cons_succ] at h ⊢
        exact IH i pid h hok
    | false =>
      rw [osmLoopTrace, hp, if_neg (by simp), List.cons_append,
        List.cons_append, List.nil_append] at h ⊢
      match i with
      | 0 =>
        rw [List.get?_cons_zero] at h
        have hpid : pid = p := by
          have := Option.some_inj.mp h
          cases this
          rfl
        rw [hpid, hp] at hok
        exact absurd hok (by simp)
      | 1 =>
        rw [List.get?_cons_succ, List.get?_cons_zero] at h
        exact absurd h (by simp)
      | i + 2 =>
        rw [List.get?_cons_succ, List.get?_cons_succ] at h ⊢
        exact IH i pid h hok

/-- C9 amended: in the amenity loop a pacing sleep of 1.2 s (≥ 1 s)
occurs between two per-perimeter queries whenever the earlier of the
two queries succeeds; when the earlier query fails, the next query may
be issued with no intervening delay (see the counterexample). -/
theorem osm_pacing_after_success (ok : ℕ → Bool) (cs : List ℕ)
    (i j pid pid' : ℕ) (hij : i < j)
    (hqi : (osmLoopTrace ok cs).get? i = some (OsmEvent.query pid))
    (hok : ok pid = true)
    (hqj : (osmLoopTrace ok cs).get? j = some (OsmEvent.query pid')) :
    ∃ k, i < k ∧ k < j ∧ ∃ d : ℚ, 1 ≤ d ∧
      (osmLoopTrace ok cs).get? k = some (OsmEvent.sleep d) := by
  have hsleep := osmLoopTrace_sleep_after_ok ok cs i pid hqi hok
  have hlt : i + 1 < j := by
    rcases Nat.lt_or_ge (i + 1) j with h | h
    · exact h
    · have hj : i + 1 = j := by omega
      rw [hj, hqj] at hsleep
      exact absurd hsleep (by simp)
  exact ⟨i + 1, by omega, hlt, 6 / 5, by norm_num, hsleep⟩

/-- C9 amended witness: with two perimeters that both succeed, the 1.2 s
pacing sleep lies between the two queries. -/
theorem osm_pacing_after_success_witness :
    ∃ k, 0 < k ∧ k < 2 ∧ ∃ d : ℚ, 1 ≤ d ∧
      (osmLoopTrace (fun _ => true) [1, 2]).get? k =
        some (OsmEvent.sleep d) :=
  osm_pacing_after_success (fun _ => true) [1, 2] 0 2 1 2 (by omega)
    (by decide) rfl (by decide)

end WiDS
